import Mathlib

/-!
Verification of the per-sample image-augmentation pipeline described by the
KerasCV guide in this repository (`RandomBlueTint` built on
`BaseImageAugmentationLayer`, the `FactorSampler` API and the `value_range`
API).  Tensors are embedded as nested lists of rationals: an image is a list
of rows, a row a list of pixels, a pixel a list of channel values.  Random
draws are embedded by threading an explicit stream `u : ℕ → ℚ` of raw random
numbers together with a position index.
-/

namespace KerasIO

/-- `tf.clip_by_value v lo hi = min (max v lo) hi`. -/
def clipByValue (v lo hi : ℚ) : ℚ := min (max v lo) hi

/-- One pixel: its list of channel values (last entry is the blue channel). -/
abbrev Pixel := List ℚ

/-- An image in HWC layout: rows of pixels. -/
abbrev Image := List (List Pixel)

/-- Per-pixel effect of `RandomBlueTint.augment_image` (guide lines 111-113 /
309-311 / 445-447): `tf.unstack` along the channel axis splits a pixel into
`[*others, blue]`, the blue channel is shifted by `t` and clipped to
`[0, 255]`, and `tf.stack` reassembles the channels.  (`tf.unstack` requires
at least one channel; pixels here are non-empty lists.) -/
def tintPixel (t : ℚ) (p : Pixel) : Pixel :=
  p.dropLast ++ [clipByValue (p.getLastD 0 + t) 0 255]

/-- `RandomBlueTint.augment_image` without the `value_range` rescaling
(guide lines 109-113 with constant shift 100, lines 308-311 with the shift
given by `transformation`): shift the last channel of every pixel by `t` and
clip to `[0, 255]`. -/
def augmentImage (t : ℚ) (img : Image) : Image :=
  img.map (fun row => row.map (tintPixel t))

/-- `RandomBlueTint.augment_label` (guide lines 313-320): when the
transformation exceeds 100 the label is replaced by the constant class 2.0,
otherwise it is returned unchanged. -/
def augment_label (label t : ℚ) : ℚ :=
  if 100 < t then 2 else label

/-- `RandomBlueTint.augment_bounding_boxes` (guide lines 322-325): a no-op. -/
def augment_bounding_boxes (boxes : List (List ℚ)) (_t : ℚ) : List (List ℚ) :=
  boxes

/-! ## The `FactorSampler` API

Modelled from the spec: the `FactorSampler` classes (`ConstantFactorSampler`,
`UniformFactorSampler`, `NormalFactorSampler`) are KerasCV library code not
contained in this repository; the guide and the spec describe their
behaviour (constant always returns the fixed value, uniform samples between
`lo` and `hi`, normal is clamped to `[min_value, max_value]`).  A draw at
stream position `i` consumes the raw random number `u i ∈ [0, 1]`. -/

/-- A configured sampling distribution for the transformation factor. -/
inductive FactorSampler where
  | constant (c : ℚ)
  | uniform (lo hi : ℚ)
  | normal (mean stddev minValue maxValue : ℚ)
  deriving DecidableEq

/-- Modelled from the spec: one draw from a `FactorSampler`, reading the raw
random number at position `i` of the stream `u`.  A constant sampler ignores
the stream; a uniform sampler rescales the raw number into `[lo, hi]`; a
normal sampler shifts and scales it and clamps to `[minValue, maxValue]`. -/
def FactorSampler.draw : FactorSampler → (ℕ → ℚ) → ℕ → ℚ
  | .constant c, _, _ => c
  | .uniform lo hi, u, i => lo + (hi - lo) * u i
  | .normal mean stddev minValue maxValue, u, i =>
      clipByValue (mean + stddev * u i) minValue maxValue

/-- The three accepted forms of the `factor` constructor argument (guide
lines 195-206): a single float, a tuple of two floats, or a
`FactorSampler`. -/
inductive FactorConfig where
  | single (f : ℚ)
  | pair (lo hi : ℚ)
  | sampler (s : FactorSampler)

/-- `preprocessing_utils.parse_factor` as documented by the guide
(lines 202-206): a tuple `(lo, hi)` samples between the two values, a single
float `f` samples between `0.0` and `f`, and a sampler is used as is. -/
def parse_factor : FactorConfig → FactorSampler
  | .single f => .uniform 0 f
  | .pair lo hi => .uniform lo hi
  | .sampler s => s

/-- The error raised for invalid configuration parameters. -/
inductive ConfigurationError where
  | invalidRange
  deriving DecidableEq

/-- Modelled from the spec: construction of a uniform `FactorSampler` with
range checking; the construction code is KerasCV library code not contained
in this repository.  The spec demands rejection of degenerate ranges, but
the guide itself constructs `factor=(0.6, 0.6)` and its docstring recommends
passing a tuple of two identical floats to obtain a deterministic factor
(guide lines 202-206 and 350-357), so only an inverted range `hi < lo` is
rejected. -/
def mkUniformFactorSampler (lo hi : ℚ) : Except ConfigurationError FactorSampler :=
  if hi < lo then .error .invalidRange else .ok (.uniform lo hi)

/-! ## The `value_range` API

Modelled from the spec: `preprocessing_utils.transform_value_range` is
KerasCV library code not contained in this repository.  Spec section 4.3
describes it as a linear rescaling between a caller-declared range and the
canonical working range; the guide (lines 442-450) rescales the image from
`self.value_range` into the canonical range `(0, 255)` before the blue
shift and back afterwards. -/

/-- Modelled from the spec: rescale a value linearly from `original` range
to `target` range. -/
def transform_value_range (v : ℚ) (original target : ℚ × ℚ) : ℚ :=
  (v - original.1) / (original.2 - original.1) * (target.2 - target.1) + target.1

/-- Rescale a value from the declared range into the canonical `(0, 255)`
range. -/
def to_canonical (v : ℚ) (r : ℚ × ℚ) : ℚ :=
  transform_value_range v r (0, 255)

/-- Rescale a value from the canonical `(0, 255)` range back into the
declared range. -/
def from_canonical (v : ℚ) (r : ℚ × ℚ) : ℚ :=
  transform_value_range v (0, 255) r

/-! ## Random-call threading

`self.factor()` is a call into the random source.  Computations that may
draw random numbers are embedded as functions of the stream `u` and the
current stream position, returning their result together with the next
position. -/

/-- A computation that may consume draws from the random stream. -/
def Rand (α : Type) : Type := (ℕ → ℚ) → ℕ → α × ℕ

/-- Calling a `FactorSampler` (`self.factor()`): returns one draw and
advances the stream position by one. -/
def FactorSampler.call (f : FactorSampler) : Rand ℚ :=
  fun u i => (f.draw u i, i + 1)

/-- `augment_image` of the `FactorSampler` version of `RandomBlueTint`
(guide lines 213-217): the blue shift is `self.factor() * 255`, drawn from
the random source inside the image transform itself. -/
def augmentImageV2 (factor : FactorSampler) (img : Image) : Rand Image :=
  fun u i =>
    let r := factor.call u i
    (augmentImage (r.1 * 255) img, r.2)

/-- `augment_image` of the `get_random_transformation` versions of
`RandomBlueTint` (guide lines 308-311): the shift is the `transformation`
argument; the body contains no call into the random source, so the stream
position is unchanged. -/
def augmentImageV3 (t : ℚ) (img : Image) : Rand Image :=
  fun _ i => (augmentImage t img, i)

/-! ## The layer with `get_random_transformation` (guide lines 283-327) -/

/-- One labeled sample: an image, a classification label and bounding
boxes. -/
structure Sample where
  images : Image
  labels : ℚ
  bounding_boxes : List (List ℚ)
  deriving DecidableEq, Inhabited

/-- The `RandomBlueTint` layer of guide lines 283-327: its only
configuration is the parsed factor sampler. -/
structure RandomBlueTint3 where
  factor : FactorSampler

/-- `RandomBlueTint.get_random_transformation` (guide lines 304-306):
`self.factor() * 255`, reading the draw at stream position `i`. -/
def RandomBlueTint3.get_random_transformation (L : RandomBlueTint3)
    (u : ℕ → ℚ) (i : ℕ) : ℚ :=
  L.factor.draw u i * 255

/-- Modelled from the spec: `BaseImageAugmentationLayer`'s per-sample
augmentation step is framework code not contained in this repository.  The
spec (section 3, TransformationDescriptor) states that the descriptor is
produced once per sample by the sampler and passed unchanged to every
field-specific transform; here the descriptor `t` is drawn once at stream
position `i` and handed to `augment_image`, `augment_label` and
`augment_bounding_boxes`. -/
def RandomBlueTint3.augmentSample (L : RandomBlueTint3) (u : ℕ → ℚ) (i : ℕ)
    (s : Sample) : Sample :=
  let t := L.get_random_transformation u i
  { images := augmentImage t s.images
    labels := augment_label s.labels t
    bounding_boxes := augment_bounding_boxes s.bounding_boxes t }

/-- The layer constructed at guide line 350: `RandomBlueTint(factor=(0.6, 0.6))`. -/
def layer06 : RandomBlueTint3 :=
  { factor := parse_factor (.pair (3/5) (3/5)) }

/-! ## The batch dispatcher

Modelled from the spec: `BaseImageAugmentationLayer.__call__`'s batch
handling is framework code not contained in this repository.  Spec section
4.4: the dispatcher detects whether the input is a single sample or a
batch and preserves that shape; on a batch it either uses the vectorized
fast path (one batched random draw, then the per-sample transform applied
to all samples at once) or, when auto-vectorization is disabled (as in the
guide's `UnVectorizable` layer, lines 537-542), the manual loop that draws
a fresh descriptor and transforms one sample per iteration.  The two paths
may consume the random stream differently, which is why their agreement is
only claimed for deterministic samplers. -/

/-- Input to the layer: a single sample (no leading batch axis) or a batch. -/
inductive Inputs where
  | single (s : Sample)
  | batch (b : List Sample)
  deriving DecidableEq

/-- One batched random draw: the descriptors for all `n` samples at once. -/
def drawBatch (sampler : FactorSampler) (u : ℕ → ℚ) (n : ℕ) : List ℚ :=
  (List.range n).map (sampler.draw u)

/-- Vectorized fast path: one batched draw, then the per-sample transform
applied elementwise. -/
def vectorizedBatch (f : ℚ → Sample → Sample) (sampler : FactorSampler)
    (u : ℕ → ℚ) (b : List Sample) : List Sample :=
  (drawBatch sampler u b.length).zipWith f b

/-- Manual loop path: each iteration draws a fresh descriptor at the
current stream position and transforms one sample. -/
def mapLoop (f : ℚ → Sample → Sample) (sampler : FactorSampler)
    (u : ℕ → ℚ) : ℕ → List Sample → List Sample
  | _, [] => []
  | i, s :: rest => f (sampler.draw u i) s :: mapLoop f sampler u (i + 1) rest

/-- Modelled from the spec: the dispatcher.  A single sample is augmented
with one draw and returned as a single sample; a batch goes through the
vectorized fast path when `vectorize` is enabled and through the manual
loop otherwise. -/
def process (vectorize : Bool) (f : ℚ → Sample → Sample)
    (sampler : FactorSampler) (u : ℕ → ℚ) : Inputs → Inputs
  | .single s => .single (f (sampler.draw u 0) s)
  | .batch b =>
      .batch (if vectorize then vectorizedBatch f sampler u b
              else mapLoop f sampler u 0 b)

/-- The batch of images of spec section 8's scenario, mapped through the
"add `k` to the last channel and clip" transform sample by sample. -/
def processImageBatch (k : ℚ) (b : List Image) : List Image :=
  b.map (augmentImage k)

/-- Shape predicate: `img` has `h` rows of `w` pixels with `c` channels. -/
def ImageHasShape (img : Image) (h w c : ℕ) : Prop :=
  img.length = h ∧ ∀ row ∈ img, row.length = w ∧ ∀ p ∈ row, p.length = c

instance (img : Image) (h w c : ℕ) : Decidable (ImageHasShape img h w c) := by
  unfold ImageHasShape; infer_instance

/-- The channel at position `n` (or a pixel) of the sample at position `n`
of batch `b`, row `y`, column `x`; out-of-range indices give the empty
pixel. -/
def pixelAt (b : List Image) (n y x : ℕ) : Pixel :=
  ((b.getD n []).getD y []).getD x []

/-! ## Helper lemmas -/

lemma clipByValue_nonneg (v t : ℚ) : 0 ≤ clipByValue (v + t) 0 255 :=
  le_min (le_max_right _ _) (by norm_num)

lemma clipByValue_le (v t : ℚ) : clipByValue (v + t) 0 255 ≤ 255 :=
  min_le_right _ _

lemma clipByValue_eq_min (v t : ℚ) (hv : 0 ≤ v) (ht : 0 ≤ t) :
    clipByValue (v + t) 0 255 = min (v + t) 255 := by
  unfold clipByValue
  rw [max_eq_left (add_nonneg hv ht)]

lemma tintPixel_three (k a b c : ℚ) :
    tintPixel k [a, b, c] = [a, b, clipByValue (c + k) 0 255] := by
  simp [tintPixel]

lemma uniform_draw_const (c : ℚ) (u : ℕ → ℚ) (i : ℕ) :
    (FactorSampler.uniform c c).draw u i = c := by
  simp [FactorSampler.draw]

/-! ## Claims -/

/-- C8: a constant sampler with value `c` returns exactly `c` on every
draw, and a factor configured as the tuple `(c, c)` (parsed into a uniform
sampler between `c` and `c`) yields the same descriptor `c` on every draw,
whatever the underlying random stream provides. -/
theorem c8_constant_factor_draw :
    (∀ (c : ℚ) (u : ℕ → ℚ) (i : ℕ), (FactorSampler.constant c).draw u i = c) ∧
    (∀ (c : ℚ) (u : ℕ → ℚ) (i : ℕ), (parse_factor (.pair c c)).draw u i = c) := by
  refine ⟨fun c u i => rfl, fun c u i => ?_⟩
  simp [parse_factor, FactorSampler.draw]

/-- C10: `augment_label` returns the constant class 2.0 whenever the
transformation descriptor exceeds 100, discarding the input label, and
returns the label unchanged when the descriptor is at most 100. -/
theorem c10_augment_label_cases (l t : ℚ) :
    (100 < t → augment_label l t = 2) ∧ (t ≤ 100 → augment_label l t = l) := by
  unfold augment_label
  exact ⟨fun h => if_pos h, fun h => if_neg (not_lt.mpr h)⟩

/-- Witness for C10 at labels 5 and descriptors 150 and 50. -/
theorem c10_augment_label_cases_witness :
    ((100 : ℚ) < 150 ∧ augment_label 5 150 = 2) ∧
      ((50 : ℚ) ≤ 100 ∧ augment_label 5 50 = 5) :=
  ⟨⟨by norm_num, (c10_augment_label_cases 5 150).1 (by norm_num)⟩,
   ⟨by norm_num, (c10_augment_label_cases 5 50).2 (by norm_num)⟩⟩

/-- C3: for a declared range `(lo, hi)` with `lo < hi` and a value `v` in
the range, rescaling into the canonical `(0, 255)` range and back
reproduces `v` exactly (hence in particular within any floating-point
tolerance), and both rescalings are linear (affine) maps. -/
theorem c3_value_range_roundtrip (lo hi v : ℚ) (h : lo < hi)
    (hv1 : lo ≤ v) (hv2 : v ≤ hi) :
    from_canonical (to_canonical v (lo, hi)) (lo, hi) = v ∧
    (∃ a b : ℚ, ∀ w, to_canonical w (lo, hi) = a * w + b) ∧
    (∃ a b : ℚ, ∀ w, from_canonical w (lo, hi) = a * w + b) := by
  have hne : hi - lo ≠ 0 := sub_ne_zero.mpr h.ne'
  refine ⟨?_, ⟨255 / (hi - lo), -(255 * lo) / (hi - lo), fun w => ?_⟩,
    ⟨(hi - lo) / 255, lo, fun w => ?_⟩⟩
  · unfold from_canonical to_canonical transform_value_range
    field_simp
    ring
  · unfold to_canonical transform_value_range
    field_simp
    ring
  · unfold from_canonical transform_value_range
    ring

/-- Witness for C3 with range `(0, 2)` and value `1`. -/
theorem c3_value_range_roundtrip_witness :
    (0 : ℚ) < 2 ∧ (0 : ℚ) ≤ 1 ∧ (1 : ℚ) ≤ 2 ∧
      (from_canonical (to_canonical 1 ((0 : ℚ), 2)) (0, 2) = 1 ∧
        (∃ a b : ℚ, ∀ w, to_canonical w ((0 : ℚ), 2) = a * w + b) ∧
        (∃ a b : ℚ, ∀ w, from_canonical w ((0 : ℚ), 2) = a * w + b)) :=
  ⟨by norm_num, by norm_num, by norm_num,
    c3_value_range_roundtrip 0 2 1 (by norm_num) (by norm_num) (by norm_num)⟩

/-- C5 counterexample: constructing a uniform sampler with `lo == hi`
(`(0.6, 0.6)`, the very configuration the guide builds at line 350 and its
docstring recommends for deterministic behaviour) succeeds; it is not
rejected with a `ConfigurationError`. -/
theorem c5_counterexample :
    mkUniformFactorSampler (3/5) (3/5) =
      Except.ok (FactorSampler.uniform (3/5) (3/5)) := by
  unfold mkUniformFactorSampler
  norm_num

/-- C5 amended: construction of a uniform sampler fails with
`ConfigurationError` exactly for inverted ranges `hi < lo`; a degenerate
range `lo == hi` is accepted and yields a sampler whose every draw returns
`lo`. -/
theorem c5_uniform_construction (lo hi c : ℚ) (u : ℕ → ℚ) (i : ℕ) :
    (hi < lo → mkUniformFactorSampler lo hi = .error .invalidRange) ∧
    (lo ≤ hi → mkUniformFactorSampler lo hi = .ok (.uniform lo hi)) ∧
    (FactorSampler.uniform c c).draw u i = c := by
  unfold mkUniformFactorSampler
  exact ⟨fun h => if_pos h, fun h => if_neg (not_lt.mpr h),
    uniform_draw_const c u i⟩

/-- Witness for C5 at the ranges `(2, 1)` and `(1, 1)`. -/
theorem c5_uniform_construction_witness :
    ((1 : ℚ) < 2 ∧ mkUniformFactorSampler 2 1 = .error .invalidRange) ∧
      ((1 : ℚ) ≤ 1 ∧ mkUniformFactorSampler 1 1 = .ok (.uniform 1 1)) :=
  ⟨⟨by norm_num, (c5_uniform_construction 2 1 0 (fun _ => 0) 0).1 (by norm_num)⟩,
   ⟨le_refl 1, (c5_uniform_construction 1 1 0 (fun _ => 0) 0).2.1 (le_refl 1)⟩⟩

/-- C6 counterexample: the `FactorSampler`-era `augment_image` (guide lines
213-217) calls `self.factor()` inside the transform, so with a uniform
factor two invocations on the same image (and the same, absent,
transformation descriptor) can yield different outputs: at consecutive
positions of the raw stream `u n = n` the first call shifts blue by 0 and
the second by 255. -/
theorem c6_counterexample :
    (augmentImageV2 (.uniform 0 1) [[[0, 0, 0]]] (fun n => (n : ℚ)) 0).1 ≠
      (augmentImageV2 (.uniform 0 1) [[[0, 0, 0]]] (fun n => (n : ℚ)) 1).1 := by
  simp [augmentImageV2, FactorSampler.call, FactorSampler.draw, augmentImage,
    tintPixel, clipByValue]

/-- C6 amended: the descriptor-taking `augment_image` of the
`get_random_transformation` versions (guide lines 308-311 and 441-451) is
pure: for a fixed image and fixed transformation descriptor its output is
the same whatever the state of the random source (it consumes no draw, so
the stream position is returned unchanged), and the input image value is
not mutated. -/
theorem c6_pure_augment_image (t : ℚ) (img : Image) (u₁ u₂ : ℕ → ℚ)
    (i₁ i₂ : ℕ) :
    (augmentImageV3 t img u₁ i₁).1 = (augmentImageV3 t img u₂ i₂).1 ∧
    (augmentImageV3 t img u₁ i₁).2 = i₁ :=
  ⟨rfl, rfl⟩

/-- C9: the value-range-unaware `augment_image` always clips the blue
channel into `[0, 255]`, whatever the actual value range of the input; in
particular on an image normalized to `[0, 1]` a shift of 25.5 (factor 0.1)
produces the blue value 26.5, far above 1. -/
theorem c9_blue_channel_range (t : ℚ) (img : Image) (ht : 0 ≤ t) :
    (∀ row ∈ augmentImage t img, ∀ p ∈ row,
      0 ≤ p.getLastD 0 ∧ p.getLastD 0 ≤ 255) ∧
    (augmentImage (51/2) [[[1, 1, 1]]] = [[[1, 1, 53/2]]] ∧ (1 : ℚ) < 53/2) := by
  refine ⟨fun row hrow p hp => ?_, ?_⟩
  · obtain ⟨row₀, -, rfl⟩ := List.mem_map.mp hrow
    obtain ⟨p₀, -, rfl⟩ := List.mem_map.mp hp
    unfold tintPixel
    rw [List.getLastD_concat]
    exact ⟨clipByValue_nonneg _ _, clipByValue_le _ _⟩
  · constructor
    · simp [augmentImage, tintPixel, clipByValue]
      norm_num
    · norm_num

/-- Witness for C9 at shift 25.5 on the normalized one-pixel image. -/
theorem c9_blue_channel_range_witness :
    (0 : ℚ) ≤ 51/2 ∧
      ((∀ row ∈ augmentImage (51/2) [[[1, 1, 1]]], ∀ p ∈ row,
          0 ≤ p.getLastD 0 ∧ p.getLastD 0 ≤ 255) ∧
        (augmentImage (51/2) [[[1, 1, 1]]] = [[[1, 1, 53/2]]] ∧
          (1 : ℚ) < 53/2)) :=
  ⟨by norm_num, c9_blue_channel_range (51/2) [[[1, 1, 1]]] (by norm_num)⟩

/-- C4: per sample the transformation descriptor is drawn exactly once
(`get_random_transformation`) and the same value is handed unchanged to
`augment_image`, `augment_label` and `augment_bounding_boxes`; for the
layer constructed with the constant factor tuple `(0.6, 0.6)` the
descriptor is `0.6 * 255 = 153` on every draw, the image's blue channel is
shifted by 153, and the label transform returns 2.0. -/
theorem c4_descriptor_consistency (L : RandomBlueTint3) (u : ℕ → ℚ) (i : ℕ)
    (s : Sample) :
    L.augmentSample u i s =
      { images := augmentImage (L.get_random_transformation u i) s.images
        labels := augment_label s.labels (L.get_random_transformation u i)
        bounding_boxes :=
          augment_bounding_boxes s.bounding_boxes
            (L.get_random_transformation u i) } ∧
    layer06.get_random_transformation u i = 153 ∧
    (layer06.augmentSample u i s).images = augmentImage 153 s.images ∧
    (layer06.augmentSample u i s).labels = 2 := by
  have ht : layer06.get_random_transformation u i = 153 := by
    simp [layer06, parse_factor, RandomBlueTint3.get_random_transformation,
      FactorSampler.draw]
    norm_num
  refine ⟨rfl, ht, ?_, ?_⟩
  · simp [RandomBlueTint3.augmentSample, ht]
  · simp [RandomBlueTint3.augmentSample, ht, augment_label]
    norm_num

/-! ### Dispatcher lemmas -/

lemma zipWith_const_draws (f : ℚ → Sample → Sample) (c : ℚ) :
    ∀ (ds : List ℚ) (b : List Sample), ds.length = b.length →
      (∀ d ∈ ds, d = c) → ds.zipWith f b = b.map (f c)
  | [], [], _, _ => rfl
  | [], _ :: _, h, _ => by simp at h
  | _ :: _, [], h, _ => by simp at h
  | d :: ds, s :: b, h, hmem => by
      have hd : d = c := hmem d (List.mem_cons_self d ds)
      have ih := zipWith_const_draws f c ds b (by simpa using h)
        (fun e he => hmem e (List.mem_cons_of_mem d he))
      simp [hd, ih]

lemma vectorizedBatch_constant (f : ℚ → Sample → Sample) (c : ℚ)
    (u : ℕ → ℚ) (b : List Sample) :
    vectorizedBatch f (.constant c) u b = b.map (f c) := by
  unfold vectorizedBatch drawBatch
  refine zipWith_const_draws f c _ b (by simp) ?_
  intro d hd
  obtain ⟨i, -, rfl⟩ := List.mem_map.mp hd
  rfl

lemma mapLoop_constant (f : ℚ → Sample → Sample) (c : ℚ) (u : ℕ → ℚ) :
    ∀ (i : ℕ) (b : List Sample), mapLoop f (.constant c) u i b = b.map (f c)
  | _, [] => rfl
  | i, s :: b => by simp [mapLoop, FactorSampler.draw, mapLoop_constant f c u (i + 1) b]

lemma mapLoop_length (f : ℚ → Sample → Sample) (sampler : FactorSampler)
    (u : ℕ → ℚ) : ∀ (i : ℕ) (b : List Sample),
      (mapLoop f sampler u i b).length = b.length
  | _, [] => rfl
  | i, s :: b => by simp [mapLoop, mapLoop_length f sampler u (i + 1) b]

lemma mapLoop_getD (f : ℚ → Sample → Sample) (sampler : FactorSampler)
    (u : ℕ → ℚ) : ∀ (b : List Sample) (i j : ℕ), j < b.length →
      (mapLoop f sampler u i b).getD j default =
        f (sampler.draw u (i + j)) (b.getD j default)
  | [], _, j, hj => by simp at hj
  | s :: b, i, 0, _ => by simp [mapLoop]
  | s :: b, i, j + 1, hj => by
      have ih := mapLoop_getD f sampler u b (i + 1) j (by simpa using hj)
      simpa [mapLoop, Nat.add_assoc, Nat.add_comm 1 j] using ih

/-- C1: on any batch, with a deterministic (constant) factor sampler and a
per-sample transform (one not marked batch-correlated, hence allowed on
the fast path), the vectorized fast path and the manual per-sample loop
produce identical output batches element for element — even though the two
paths may consume entirely different random streams `u` and `v`. -/
theorem c1_vectorized_eq_loop (c : ℚ) (f : ℚ → Sample → Sample)
    (u v : ℕ → ℚ) (b : List Sample) :
    process true f (.constant c) u (.batch b) =
      process false f (.constant c) v (.batch b) := by
  show Inputs.batch (vectorizedBatch f (.constant c) u b) =
    Inputs.batch (mapLoop f (.constant c) v 0 b)
  rw [vectorizedBatch_constant, mapLoop_constant]

/-- C2: the dispatcher preserves batch shape: a single sample (no leading
batch axis) is returned as a single augmented sample, and a batch of `N`
samples is returned as a batch of exactly `N` augmented samples in input
order (the `j`-th output is the augmentation of the `j`-th input), on both
the vectorized and the loop path. -/
theorem c2_shape_preservation (vect : Bool) (f : ℚ → Sample → Sample)
    (sampler : FactorSampler) (u : ℕ → ℚ) (s : Sample) (b : List Sample)
    (j : ℕ) (hj : j < b.length) :
    process vect f sampler u (.single s) =
      .single (f (sampler.draw u 0) s) ∧
    ∃ out, process vect f sampler u (.batch b) = .batch out ∧
      out.length = b.length ∧
      out.getD j default = f (sampler.draw u j) (b.getD j default) := by
  refine ⟨rfl, if vect then vectorizedBatch f sampler u b
    else mapLoop f sampler u 0 b, rfl, ?_, ?_⟩
  · cases vect with
    | true => simp [vectorizedBatch, drawBatch]
    | false => simp [mapLoop_length]
  · cases vect with
    | true =>
        have hlen : j < (vectorizedBatch f sampler u b).length := by
          simpa [vectorizedBatch, drawBatch] using hj
        have hd : j < (drawBatch sampler u b.length).length := by
          simpa [drawBatch] using hj
        rw [if_pos rfl, List.getD_eq_getElem _ _ hlen,
          List.getD_eq_getElem _ _ hj]
        unfold vectorizedBatch
        rw [List.getElem_zipWith]
        congr 1
        simp [drawBatch]
    | false =>
        rw [if_neg (by simp)]
        simpa using mapLoop_getD f sampler u b 0 j hj

/-- Witness for C2 on the one-element batch `[default]` at index 0. -/
theorem c2_shape_preservation_witness :
    0 < List.length [(default : Sample)] ∧
      (process true (fun _ s => s) (.constant 7) (fun _ => 0)
          (.single default) = .single default ∧
        ∃ out, process true (fun _ s => s) (.constant 7) (fun _ => 0)
            (.batch [default]) = .batch out ∧
          out.length = 1 ∧ out.getD 0 default = default) :=
  ⟨by decide,
    c2_shape_preservation true (fun _ s => s) (.constant 7) (fun _ => 0)
      default [default] 0 (by decide)⟩

/-! ### Shape and access lemmas for the batch scenario -/

lemma getD_map_lt {α β : Type} (f : α → β) (l : List α) (n : ℕ)
    (d : β) (d' : α) (h : n < l.length) :
    (l.map f).getD n d = f (l.getD n d') := by
  rw [List.getD_eq_getElem _ _ (show n < (l.map f).length by simpa using h),
    List.getElem_map, List.getD_eq_getElem _ _ h]

lemma getD_mem_of_lt {α : Type} (l : List α) (n : ℕ) (d : α)
    (h : n < l.length) : l.getD n d ∈ l := by
  rw [List.getD_eq_getElem _ _ h]
  exact List.getElem_mem h

lemma pixelAt_def (b : List Image) (n y x : ℕ) :
    pixelAt b n y x = ((b.getD n []).getD y []).getD x [] := rfl

lemma augmentImage_shape (k : ℚ) (img : Image) (h w c : ℕ) (hc : 0 < c)
    (hs : ImageHasShape img h w c) :
    ImageHasShape (augmentImage k img) h w c := by
  obtain ⟨hlen, hrows⟩ := hs
  refine ⟨by simpa [augmentImage] using hlen, ?_⟩
  intro row hrow
  obtain ⟨row₀, hrow₀, rfl⟩ := List.mem_map.mp hrow
  obtain ⟨hrl, hps⟩ := hrows row₀ hrow₀
  refine ⟨by simpa using hrl, ?_⟩
  intro p hp
  obtain ⟨p₀, hp₀, rfl⟩ := List.mem_map.mp hp
  have hpl := hps p₀ hp₀
  simp [tintPixel, List.length_dropLast]
  omega

lemma pixelAt_processImageBatch (k : ℚ) (batch : List Image) (n y x : ℕ)
    (hn : n < batch.length) (hy : y < (batch.getD n []).length)
    (hx : x < ((batch.getD n []).getD y []).length) :
    pixelAt (processImageBatch k batch) n y x =
      tintPixel k (pixelAt batch n y x) := by
  rw [pixelAt_def, pixelAt_def]
  unfold processImageBatch
  rw [getD_map_lt (augmentImage k) batch n [] [] hn]
  unfold augmentImage
  rw [getD_map_lt _ _ y [] [] hy, getD_map_lt (tintPixel k) _ x [] [] hx]

/-- C7: for a batch of 3 samples with per-sample image shape `(4, 4, 3)`,
values in `[0, 255]` and the transform "add `k ≥ 0` to the last channel
and clip to `[0, 255]`", the output batch has 3 images of shape
`(4, 4, 3)`, the last channel of every pixel equals
`min (original + k) 255`, and the other channels are unchanged. -/
theorem c7_batch_scenario (batch : List Image) (k : ℚ) (n y x : ℕ)
    (hb : batch.length = 3)
    (hshape : ∀ img ∈ batch, ImageHasShape img 4 4 3)
    (hrange : ∀ img ∈ batch, ∀ row ∈ img, ∀ p ∈ row, ∀ v ∈ p,
      0 ≤ v ∧ v ≤ 255)
    (hk : 0 ≤ k) (hn : n < 3) (hy : y < 4) (hx : x < 4) :
    (processImageBatch k batch).length = 3 ∧
    (∀ img ∈ processImageBatch k batch, ImageHasShape img 4 4 3) ∧
    (pixelAt (processImageBatch k batch) n y x).getD 0 0 =
      (pixelAt batch n y x).getD 0 0 ∧
    (pixelAt (processImageBatch k batch) n y x).getD 1 0 =
      (pixelAt batch n y x).getD 1 0 ∧
    (pixelAt (processImageBatch k batch) n y x).getD 2 0 =
      min ((pixelAt batch n y x).getD 2 0 + k) 255 := by
  have hn' : n < batch.length := by rw [hb]; exact hn
  have himg : batch.getD n [] ∈ batch := getD_mem_of_lt _ _ _ hn'
  obtain ⟨hh4, hrows⟩ := hshape _ himg
  have hy' : y < (batch.getD n []).length := by rw [hh4]; exact hy
  have hrow : (batch.getD n []).getD y [] ∈ batch.getD n [] :=
    getD_mem_of_lt _ _ _ hy'
  obtain ⟨hw4, hpix⟩ := hrows _ hrow
  have hx' : x < ((batch.getD n []).getD y []).length := by rw [hw4]; exact hx
  have hp : ((batch.getD n []).getD y []).getD x [] ∈
      (batch.getD n []).getD y [] := getD_mem_of_lt _ _ _ hx'
  have hp3 : (pixelAt batch n y x).length = 3 := by
    rw [pixelAt_def]; exact hpix _ hp
  obtain ⟨a, b, c, habc⟩ := List.length_eq_three.mp hp3
  have hvals := hrange _ himg _ hrow _ hp
  have hcmem : c ∈ pixelAt batch n y x := by rw [habc]; simp
  have hc0 : 0 ≤ c := (hvals c (by rwa [pixelAt_def] at hcmem)).1
  refine ⟨by simp [processImageBatch, hb], ?_, ?_⟩
  · intro img himg'
    obtain ⟨img₀, himg₀, rfl⟩ := List.mem_map.mp himg'
    exact augmentImage_shape k img₀ 4 4 3 (by norm_num) (hshape _ himg₀)
  · rw [pixelAt_processImageBatch k batch n y x hn' hy' hx', habc,
      tintPixel_three, clipByValue_eq_min c k hc0 hk]
    exact ⟨rfl, rfl, rfl⟩

/-- Concrete pixel, image and batch for the C7 witness. -/
def c7Pixel : Pixel := [10, 20, 250]

/-- A `4 × 4` image of `c7Pixel`s. -/
def c7Image : Image := List.replicate 4 (List.replicate 4 c7Pixel)

/-- A batch of three `c7Image`s. -/
def c7Batch : List Image := List.replicate 3 c7Image

/-- Witness for C7 on `c7Batch` with `k = 10` at pixel `(0, 0, 0)`. -/
theorem c7_batch_scenario_witness :
    c7Batch.length = 3 ∧
    (∀ img ∈ c7Batch, ImageHasShape img 4 4 3) ∧
    (∀ img ∈ c7Batch, ∀ row ∈ img, ∀ p ∈ row, ∀ v ∈ p,
      0 ≤ v ∧ v ≤ 255) ∧
    (0 : ℚ) ≤ 10 ∧
    ((processImageBatch 10 c7Batch).length = 3 ∧
      (∀ img ∈ processImageBatch 10 c7Batch, ImageHasShape img 4 4 3) ∧
      (pixelAt (processImageBatch 10 c7Batch) 0 0 0).getD 0 0 =
        (pixelAt c7Batch 0 0 0).getD 0 0 ∧
      (pixelAt (processImageBatch 10 c7Batch) 0 0 0).getD 1 0 =
        (pixelAt c7Batch 0 0 0).getD 1 0 ∧
      (pixelAt (processImageBatch 10 c7Batch) 0 0 0).getD 2 0 =
        min ((pixelAt c7Batch 0 0 0).getD 2 0 + 10) 255) :=
  ⟨by decide, by decide, by decide, by norm_num,
    c7_batch_scenario c7Batch 10 0 0 0 (by decide) (by decide) (by decide)
      (by norm_num) (by norm_num) (by norm_num) (by norm_num)⟩

end KerasIO
